import Mathlib

/-!
# Verification of the stock-technical-scanner repository

Shallow embedding of the four scan predicates
(`scanners/scan_price_surge.py`, `scanners/scan_upward_gap.py`,
`scanners/scan_continuous_uptrend.py`, `scanners/scan_volume_breakout.py`)
and of the per-ticker evaluator / aggregator `perform_scans` in `app.py`.

Modelling conventions:
* Prices are rationals (`ℚ`); the Python floats are treated as exact reals.
* Volumes are naturals (non-negative integers per the data model).
* Dates are naturals (an ordinal encoding of calendar dates; comparisons on
  dates in the source are order comparisons, which this encoding preserves).
* Ticker symbols are naturals, ordered as ticker names are ordered;
  `sorted()` on a set of tickers becomes an insertion sort on the list of
  distinct ticker identifiers.
* A pandas `DataFrame` of OHLCV rows is a `List Bar`; positional access
  `iloc[idx]` is `getD idx default` (all accesses in the source stay in
  bounds, so the default is never read on the loop ranges used).
-/

set_option maxHeartbeats 1000000

structure Bar where
  date : Nat
  Open : ℚ
  High : ℚ
  Low : ℚ
  Close : ℚ
  Volume : Nat
deriving DecidableEq, Repr

instance : Inhabited Bar := ⟨⟨0, 0, 0, 0, 0, 0⟩⟩

/-- Positional row access, `data.iloc[i]`. -/
def getBar (data : List Bar) (i : Nat) : Bar := data.getD i default

/-- Value of `data["Close"].pct_change() * 100` at row `idx` (for `idx ≥ 1`):
the percentage change of the close over the previous close. -/
def pctChange (data : List Bar) (idx : Nat) : ℚ :=
  ((getBar data idx).Close - (getBar data (idx - 1)).Close)
    / (getBar data (idx - 1)).Close * 100

/-- Function `scan_price_surge` from `scanners/scan_price_surge.py`:
for `idx` in `range(1, len(data))`, emit `(date, pct_change, close)` when
`pct_change > threshold * 100`.  Returns `[]` when `len(data) < 2`. -/
def scan_price_surge (data : List Bar) (threshold : ℚ) : List (Nat × ℚ × ℚ) :=
  if data.length < 2 then []
  else
    (List.range' 1 (data.length - 1)).filterMap fun idx =>
      if pctChange data idx > threshold * 100 then
        some ((getBar data idx).date, pctChange data idx, (getBar data idx).Close)
      else none

/-- Function `scan_upward_gap` from `scanners/scan_upward_gap.py`:
for `idx` in `range(1, len(data))`, emit `(date, gap_pct, open)` when
`open > prev_close * (1 + threshold)`.  Returns `[]` when `len(data) < 2`. -/
def scan_upward_gap (data : List Bar) (threshold : ℚ) : List (Nat × ℚ × ℚ) :=
  if data.length < 2 then []
  else
    (List.range' 1 (data.length - 1)).filterMap fun idx =>
      let prev_close := (getBar data (idx - 1)).Close
      let curr_open := (getBar data idx).Open
      if curr_open > prev_close * (1 + threshold) then
        some ((getBar data idx).date, (curr_open - prev_close) / prev_close * 100, curr_open)
      else none

/-- The loop body of `scan_continuous_uptrend`: `prev_close` is
`data["Close"].iloc[idx-1]`, `consecutive_days` the running streak counter;
on a higher close the streak is incremented and a hit `(date, streak, close)`
is emitted once the streak has reached `min_days`, otherwise the streak
resets to 1. -/
def uptrend_go (min_days : Nat) (prev_close : ℚ) (consecutive_days : Nat) :
    List Bar → List (Nat × Nat × ℚ)
  | [] => []
  | b :: rest =>
    if b.Close > prev_close then
      if consecutive_days + 1 ≥ min_days then
        (b.date, consecutive_days + 1, b.Close)
          :: uptrend_go min_days b.Close (consecutive_days + 1) rest
      else uptrend_go min_days b.Close (consecutive_days + 1) rest
    else uptrend_go min_days b.Close 1 rest

/-- Function `scan_continuous_uptrend` from `scanners/scan_continuous_uptrend.py`:
streak counter initialized to 1 at the first bar, loop from index 1.
Returns `[]` when `len(data) < min_days`. -/
def scan_continuous_uptrend (data : List Bar) (min_days : Nat) : List (Nat × Nat × ℚ) :=
  if data.length < min_days then []
  else
    match data with
    | [] => []
    | b :: rest => uptrend_go min_days b.Close 1 rest

/-- Value of `data["Volume"].rolling(window=ma_period).mean()` at row `idx`, for a row
with a full window available: the mean of the volumes of rows
`idx - ma_period + 1 .. idx`.  (For `ma_period ≥ 1` and `idx ≥ ma_period - 1`
the pandas rolling mean is defined — not NaN — and equals this value; the
loop of the scanner below only reads it at `idx ≥ ma_period`.) -/
def volumeMA (data : List Bar) (ma_period : Nat) (idx : Nat) : ℚ :=
  (((List.range' (idx + 1 - ma_period) ma_period).map
      fun j => ((getBar data j).Volume : ℚ)).sum) / (ma_period : ℚ)

/-- Function `scan_volume_breakout` from `scanners/scan_volume_breakout.py`:
for `idx` in `range(ma_period, len(data))`, emit
`(date, int(volume), int(avg_volume))` when
`volume > avg_volume * (1 + threshold)`, `avg_volume` being the rolling mean
of volume.  Returns `[]` when `len(data) < ma_period`.  The Python `int()` conversion
truncates toward zero; the average of naturals is non-negative, so the
truncation is `Rat.floor`. -/
def scan_volume_breakout (data : List Bar) (threshold : ℚ) (ma_period : Nat) :
    List (Nat × Nat × Int) :=
  if data.length < ma_period then []
  else
    (List.range' ma_period (data.length - ma_period)).filterMap fun idx =>
      let volume := (getBar data idx).Volume
      let avg_volume := volumeMA data ma_period idx
      if (volume : ℚ) > avg_volume * (1 + threshold) then
        some ((getBar data idx).date, volume, Rat.floor avg_volume)
      else none

/-!
## The per-ticker evaluator and aggregator (`perform_scans` in `app.py`)

The orchestration around the core loop (progress bar, rate-limit delay,
cooperative cancellation) has no effect on the produced tables beyond
truncating the ticker list, and a truncated run on `tickers` equals a full
run on the processed prefix; the model therefore takes the processed ticker
list as its input.  Each input entry pairs a ticker with the outcome of the
data fetch (`none` models a fetch error or empty frame).  Constant display
fields of the combined row ("Criteria Met", the Yahoo Finance link) are
omitted.  The "N/A" display value is modelled as `none`.
-/

/-- Guard of `fetch_stock_data`: a fetch error, an empty frame, or fewer
than 10 rows yields `None`. -/
def fetch_ok : Option (List Bar) → Option (List Bar)
  | none => none
  | some data => if data.length < 10 then none else some data

/-- Row of the Scan A (price surge) table. -/
structure RowA where
  Ticker : Nat
  Date : Nat
  PriceChange : ℚ
  ClosePrice : ℚ
  Volume : Option Nat
deriving DecidableEq, Repr

/-- Row of the Scan B (upward gap) table. -/
structure RowB where
  Ticker : Nat
  Date : Nat
  Gap : ℚ
  OpenPrice : ℚ
  Volume : Option Nat
deriving DecidableEq, Repr

/-- Row of the Scan C (continuous uptrend) table. -/
structure RowC where
  Ticker : Nat
  EndDate : Nat
  ConsecutiveDays : Nat
  ClosePrice : ℚ
  Volume : Option Nat
deriving DecidableEq, Repr

/-- Row of the Scan D (volume breakout) table.  The evaluator unpacks the
scanner tuple `(date, volume, avg_volume)` as `(date, volume_ratio, volume)`,
so the "Volume Increase (%)" field is built from the raw volume of the bar
and the "Volume" field from the truncated moving average. -/
structure RowD where
  Ticker : Nat
  Date : Nat
  VolumeIncrease : Nat
  Volume : Int
  Price : Option ℚ
deriving DecidableEq, Repr

/-- Row of the combined ("All 4 Criteria") table. -/
structure CombinedRow where
  Ticker : Nat
  Price : Option ℚ
  Volume : Option Int
deriving DecidableEq, Repr

/-- Accumulating state of the scan loop: the four result-row lists and the
four ticker hit-sets (Python sets, modelled as duplicate-free lists). -/
structure ScanState where
  scan_a : List RowA
  scan_b : List RowB
  scan_c : List RowC
  scan_d : List RowD
  surge : List Nat
  gap : List Nat
  uptrend : List Nat
  volume : List Nat
deriving DecidableEq, Repr

def initState : ScanState := ⟨[], [], [], [], [], [], [], []⟩

/-- Insertion into a Python set. -/
def setInsert (x : Nat) (s : List Nat) : List Nat := if x ∈ s then s else x :: s

/-- Lookup `frame.loc[date, field]` guarded by `date in frame.index`:
the field of the first bar carrying the given date, if any. -/
def lookupBar (frame : List Bar) (date : Nat) : Option Bar :=
  frame.find? fun b => b.date == date

/-- One iteration of the ticker loop of `perform_scans`: fetch, slice to the
report window, run the four scanners (A, B, C on the slice, D on the full
series with its hits re-filtered to the window), append the result rows and
update the four hit-sets. -/
def processTicker (scan_start : Nat) (price_surge_threshold upward_gap_threshold : ℚ)
    (uptrend_min_days : Nat) (volume_breakout_threshold : ℚ)
    (st : ScanState) (ticker : Nat) (fetched : Option (List Bar)) : ScanState :=
  match fetch_ok fetched with
  | none => st
  | some data =>
    let scan_data := data.filter fun b => decide (scan_start ≤ b.date)
    let surge_results := scan_price_surge scan_data price_surge_threshold
    let gap_results := scan_upward_gap scan_data upward_gap_threshold
    let uptrend_results := scan_continuous_uptrend scan_data uptrend_min_days
    let volume_results := scan_volume_breakout data volume_breakout_threshold 50
    let volume_kept := volume_results.filter fun r => decide (scan_start ≤ r.1)
    { scan_a := st.scan_a ++ surge_results.map fun r =>
        ⟨ticker, r.1, r.2.1, r.2.2, (lookupBar scan_data r.1).map Bar.Volume⟩
      scan_b := st.scan_b ++ gap_results.map fun r =>
        ⟨ticker, r.1, r.2.1, r.2.2, (lookupBar scan_data r.1).map Bar.Volume⟩
      scan_c := st.scan_c ++ uptrend_results.map fun r =>
        ⟨ticker, r.1, r.2.1, r.2.2, (lookupBar scan_data r.1).map Bar.Volume⟩
      scan_d := st.scan_d ++ volume_kept.map fun r =>
        ⟨ticker, r.1, r.2.1, r.2.2, (lookupBar scan_data r.1).map Bar.Close⟩
      surge := if surge_results.isEmpty then st.surge else setInsert ticker st.surge
      gap := if gap_results.isEmpty then st.gap else setInsert ticker st.gap
      uptrend := if uptrend_results.isEmpty then st.uptrend else setInsert ticker st.uptrend
      volume := if volume_kept.isEmpty then st.volume else setInsert ticker st.volume }

/-- Intersection of the four hit-sets,
`tickers_with_surge & tickers_with_gap & tickers_with_uptrend & tickers_with_volume`. -/
def allCriteria (st : ScanState) : List Nat :=
  st.surge.filter fun t => t ∈ st.gap ∧ t ∈ st.uptrend ∧ t ∈ st.volume

/-- Construction of the combined table: one row per ticker of the sorted
intersection, whose price and volume are looked up by first match in the
Scan A and Scan D tables ("N/A", i.e. `none`, when no row matches). -/
def mkCombined (st : ScanState) : List CombinedRow :=
  (List.insertionSort (· ≤ ·) (allCriteria st)).map fun ticker =>
    ⟨ticker,
     (st.scan_a.find? fun r => r.Ticker == ticker).map RowA.ClosePrice,
     (st.scan_d.find? fun r => r.Ticker == ticker).map RowD.Volume⟩

/-- Output of `perform_scans`: the five result tables. -/
structure ScanResults where
  scan_a : List RowA
  scan_b : List RowB
  scan_c : List RowC
  scan_d : List RowD
  combined : List CombinedRow
deriving DecidableEq, Repr

/-- Function `perform_scans` of `app.py` over the processed ticker list.
The volume-breakout scan keeps the default `ma_period = 50` of the source. -/
def perform_scans (input : List (Nat × Option (List Bar))) (scan_start : Nat)
    (price_surge_threshold upward_gap_threshold : ℚ) (uptrend_min_days : Nat)
    (volume_breakout_threshold : ℚ) : ScanResults :=
  let st := input.foldl
    (fun st td => processTicker scan_start price_surge_threshold upward_gap_threshold
      uptrend_min_days volume_breakout_threshold st td.1 td.2)
    initState
  ⟨st.scan_a, st.scan_b, st.scan_c, st.scan_d, mkCombined st⟩

/-!
## Concrete example series used by the witnesses and worked examples
-/

/-- Five bars with strictly ascending closes 10, 11, 12, 13, 14. -/
def exUp5 : List Bar :=
  [⟨0, 10, 10, 10, 10, 0⟩, ⟨1, 11, 11, 11, 11, 0⟩, ⟨2, 12, 12, 12, 12, 0⟩,
   ⟨3, 13, 13, 13, 13, 0⟩, ⟨4, 14, 14, 14, 14, 0⟩]

/-- Two bars: previous close 100, then an open of 102 (a 2 percent gap). -/
def exGapHit : List Bar := [⟨0, 100, 100, 100, 100, 0⟩, ⟨1, 102, 102, 102, 102, 0⟩]

/-- Two bars: previous close 100, then an open of 100.5 (a 0.5 percent gap). -/
def exGapMiss : List Bar := [⟨0, 100, 100, 100, 100, 0⟩, ⟨1, 201/2, 201/2, 201/2, 201/2, 0⟩]

/-- Two bars whose closes rise from 100 to 110 (a 10 percent surge). -/
def exSurge2 : List Bar := [⟨0, 100, 100, 100, 100, 0⟩, ⟨1, 110, 110, 110, 110, 0⟩]

/-- Three bars with volumes 100, 100, 1000: with `ma_period = 2` the last bar
is a breakout over the trailing average 550. -/
def exVol3 : List Bar := [⟨0, 1, 1, 1, 1, 100⟩, ⟨1, 1, 1, 1, 1, 100⟩, ⟨2, 1, 1, 1, 1, 1000⟩]

/-- Close of the last bar of a list, or the given previous close when the
list is empty: the value the streak loop compares the next bar against
after having consumed the list. -/
def lastClose (p : ℚ) : List Bar → ℚ
  | [] => p
  | b :: rest => lastClose b.Close rest

/-- Invariant of the scan-loop state, relative to the processed input and
the report-window start `ss`: the four hit-sets are duplicate-free and hold
exactly the tickers appearing in the corresponding result table; all
recorded rows are dated inside the report window; and every volume-breakout
row takes its fields from a bar of the fetched series of its ticker — the
"Volume Increase" field the raw volume of the bar, the "Volume" field the
truncated 50-bar rolling mean. -/
def StateInv (input : List (Nat × Option (List Bar))) (ss : Nat) (st : ScanState) : Prop :=
  st.surge.Nodup ∧ st.gap.Nodup ∧ st.uptrend.Nodup ∧ st.volume.Nodup
  ∧ st.surge.toFinset = (st.scan_a.map RowA.Ticker).toFinset
  ∧ st.gap.toFinset = (st.scan_b.map RowB.Ticker).toFinset
  ∧ st.uptrend.toFinset = (st.scan_c.map RowC.Ticker).toFinset
  ∧ st.volume.toFinset = (st.scan_d.map RowD.Ticker).toFinset
  ∧ (∀ r ∈ st.scan_a, ss ≤ r.Date)
  ∧ (∀ r ∈ st.scan_b, ss ≤ r.Date)
  ∧ (∀ r ∈ st.scan_c, ss ≤ r.EndDate)
  ∧ (∀ r ∈ st.scan_d, ss ≤ r.Date)
  ∧ (∀ r ∈ st.scan_d, ∃ td ∈ input, ∃ data, fetch_ok td.2 = some data ∧ r.Ticker = td.1
      ∧ ∃ i, 50 ≤ i ∧ i < data.length ∧ r.Date = (getBar data i).date
        ∧ r.VolumeIncrease = (getBar data i).Volume
        ∧ r.Volume = Rat.floor (volumeMA data 50 i))

/-!
## Basic list and floor facts
-/

/-- The `Rat.floor` used by the embedding agrees with the floor of the
`FloorRing` structure of `ℚ`. -/
theorem rat_floor_eq_floor (q : ℚ) : Rat.floor q = ⌊q⌋ := rfl

/-- Looping over `range(p, n)` is looping over `range(n)` restricted to the
indices that are at least `p`. -/
theorem filterMap_range'_from {α : Type} (f : Nat → Option α) (p : Nat) :
    ∀ n, (List.range' p (n - p)).filterMap f
      = (List.range n).filterMap fun i => if p ≤ i then f i else none := by
  intro n
  induction n with
  | zero => simp
  | succ n ih =>
    rw [List.range_succ, List.filterMap_append]
    by_cases hp : p ≤ n
    · have h1 : n + 1 - p = (n - p) + 1 := by omega
      rw [h1, List.range'_concat, List.filterMap_append, ih]
      have h2 : p + 1 * (n - p) = n := by omega
      rw [h2]
      simp [List.filterMap_cons, hp]
    · have h1 : n + 1 - p = 0 := by omega
      have h0 : n - p = 0 := by omega
      rw [h0] at ih
      rw [h1, ← ih]
      simp [hp]

/-- C5: each scan predicate is total and returns an empty result on
too-short input: fewer than 2 bars for PriceSurge and UpwardGap, fewer than
`min_days` bars for ContinuousUptrend, fewer than `ma_period` bars for
VolumeBreakout. -/
theorem scanners_total_on_short_input (data : List Bar) (threshold : ℚ)
    (min_days ma_period : Nat) :
    (data.length < 2 →
      scan_price_surge data threshold = [] ∧ scan_upward_gap data threshold = [])
    ∧ (data.length < min_days → scan_continuous_uptrend data min_days = [])
    ∧ (data.length < ma_period → scan_volume_breakout data threshold ma_period = []) := by
  refine ⟨fun h => ⟨?_, ?_⟩, fun h => ?_, fun h => ?_⟩ <;>
    simp [scan_price_surge, scan_upward_gap, scan_continuous_uptrend,
      scan_volume_breakout, h]

/-- Witness for C5 at the empty series. -/
theorem scanners_total_on_short_input_witness :
    ([] : List Bar).length < 2 ∧ ([] : List Bar).length < 4 ∧ ([] : List Bar).length < 50
    ∧ scan_price_surge [] 1 = [] ∧ scan_upward_gap [] 1 = []
    ∧ scan_continuous_uptrend [] 4 = [] ∧ scan_volume_breakout [] 1 50 = [] :=
  ⟨by decide, by decide, by decide,
   ((scanners_total_on_short_input [] 1 4 50).1 (by decide)).1,
   ((scanners_total_on_short_input [] 1 4 50).1 (by decide)).2,
   (scanners_total_on_short_input [] 1 4 50).2.1 (by decide),
   (scanners_total_on_short_input [] 1 4 50).2.2 (by decide)⟩

/-- Characterization of `scan_volume_breakout` as a filter over all bar
indexes (shared helper). -/
theorem scan_volume_breakout_eq (data : List Bar) (threshold : ℚ)
    (ma_period : Nat) :
    scan_volume_breakout data threshold ma_period
      = (List.range data.length).filterMap fun i =>
          if ma_period ≤ i ∧
              (1 + threshold) * volumeMA data ma_period i < ((getBar data i).Volume : ℚ)
          then some ((getBar data i).date, (getBar data i).Volume,
                     Rat.floor (volumeMA data ma_period i))
          else none := by
  unfold scan_volume_breakout
  by_cases h : data.length < ma_period
  · rw [if_pos h]
    symm
    rw [List.filterMap_eq_nil_iff]
    intro i hi
    rw [List.mem_range] at hi
    rw [if_neg]
    rintro ⟨h1, -⟩
    omega
  · rw [if_neg h, filterMap_range'_from]
    apply List.filterMap_congr
    intro i _
    by_cases hp : ma_period ≤ i
    · rw [if_pos hp]
      by_cases hc : ((getBar data i).Volume : ℚ) > volumeMA data ma_period i * (1 + threshold)
      · have hc2 : (1 + threshold) * volumeMA data ma_period i
            < ((getBar data i).Volume : ℚ) := by rw [mul_comm]; exact hc
        rw [if_pos hc, if_pos (And.intro hp hc2)]
      · have hc2 : ¬ (ma_period ≤ i ∧ (1 + threshold) * volumeMA data ma_period i
            < ((getBar data i).Volume : ℚ)) := by
          rintro ⟨-, hx⟩
          rw [mul_comm] at hx
          exact hc hx
        rw [if_neg hc, if_neg hc2]
    · rw [if_neg hp, if_neg]
      rintro ⟨h1, -⟩
      exact hp h1

/-- C10: VolumeBreakout on a series of exactly `ma_period` bars is empty; a
nonempty result needs at least `ma_period + 1` bars, because the earliest
index the loop visits is `ma_period`; and `ma_period` is achieved: on the
three-bar series `exVol3` with `ma_period = 2` the single hit is at index 2,
the bar with date 2. -/
theorem volume_breakout_needs_more_than_ma_period_bars (data : List Bar)
    (threshold : ℚ) (ma_period : Nat) :
    (data.length = ma_period → scan_volume_breakout data threshold ma_period = [])
    ∧ (scan_volume_breakout data threshold ma_period ≠ [] → ma_period + 1 ≤ data.length)
    ∧ scan_volume_breakout exVol3 (1/10) 2 = [(2, 1000, 550)] := by
  refine ⟨fun h => ?_, fun h => ?_, ?_⟩
  · simp [scan_volume_breakout, h]
  · by_contra hlen
    apply h
    unfold scan_volume_breakout
    by_cases h2 : data.length < ma_period
    · rw [if_pos h2]
    · rw [if_neg h2]
      have : data.length - ma_period = 0 := by omega
      rw [this]
      rfl
  · show scan_volume_breakout exVol3 (1/10) 2 = [(2, 1000, 550)]
    rw [scan_volume_breakout_eq]
    have h3 : exVol3.length = 3 := rfl
    rw [h3]
    norm_num [exVol3, getBar, volumeMA, List.range', rat_floor_eq_floor,
      List.filterMap_cons, List.range_succ]

/-- C7: PriceSurge is antitone in its threshold — every hit returned at the
larger threshold `t2` is also returned at the smaller threshold `t1`, so the
hit set (and hence the set of hit dates) can only shrink as the threshold is
raised. -/
theorem price_surge_threshold_antitone (data : List Bar) (t1 t2 : ℚ) (h : t1 ≤ t2) :
    ∀ x ∈ scan_price_surge data t2, x ∈ scan_price_surge data t1 := by
  intro x hx
  unfold scan_price_surge at hx ⊢
  by_cases h2 : data.length < 2
  · rw [if_pos h2] at hx
    cases hx
  · rw [if_neg h2] at hx ⊢
    rw [List.mem_filterMap] at hx ⊢
    obtain ⟨i, hi, hfi⟩ := hx
    refine ⟨i, hi, ?_⟩
    by_cases hc : pctChange data i > t2 * 100
    · rw [if_pos hc] at hfi
      have h100 : t1 * 100 ≤ t2 * 100 :=
        mul_le_mul_of_nonneg_right h (by norm_num)
      rw [if_pos (lt_of_le_of_lt h100 hc)]
      exact hfi
    · rw [if_neg hc] at hfi
      cases hfi

/-- Witness for C7: on the two-bar series `exSurge2` (a 10 percent surge),
the hit found at threshold 0.05 is also found at threshold 0.01. -/
theorem price_surge_threshold_antitone_witness :
    (1/100 : ℚ) ≤ 5/100 ∧ ((1 : Nat), (10 : ℚ), (110 : ℚ)) ∈ scan_price_surge exSurge2 (1/100) := by
  constructor
  · norm_num
  · apply price_surge_threshold_antitone exSurge2 (1/100) (5/100) (by norm_num)
    have hs : scan_price_surge exSurge2 (5/100) = [(1, 10, 110)] := by
      norm_num [scan_price_surge, pctChange, getBar, exSurge2, List.range',
        List.filterMap_cons]
    rw [hs]
    exact List.mem_singleton.mpr rfl

/-- C6: UpwardGap emits a hit at bar `i` exactly when
`open[i] > close[i-1] * (1 + threshold)`; for a positive previous close this
condition is equivalent to `gap_pct > threshold * 100` where
`gap_pct = (open[i] - close[i-1]) / close[i-1] * 100`, with strict
inequality; and on the worked examples with previous close 100 and
threshold 0.01 an open of 102 is a hit with gap 2.0 while an open of 100.5
is not a hit. -/
theorem upward_gap_hit_characterization (data : List Bar) (threshold : ℚ) :
    (scan_upward_gap data threshold
      = (List.range data.length).filterMap fun i =>
          if 1 ≤ i ∧ (getBar data (i-1)).Close * (1 + threshold) < (getBar data i).Open
          then some ((getBar data i).date,
                     ((getBar data i).Open - (getBar data (i-1)).Close)
                       / (getBar data (i-1)).Close * 100,
                     (getBar data i).Open)
          else none)
    ∧ (∀ i, 0 < (getBar data (i-1)).Close →
        ((getBar data (i-1)).Close * (1 + threshold) < (getBar data i).Open ↔
          threshold * 100 <
            ((getBar data i).Open - (getBar data (i-1)).Close)
              / (getBar data (i-1)).Close * 100))
    ∧ scan_upward_gap exGapHit (1/100) = [(1, 2, 102)]
    ∧ scan_upward_gap exGapMiss (1/100) = [] := by
  refine ⟨?_, ?_, ?_, ?_⟩
  · unfold scan_upward_gap
    by_cases h : data.length < 2
    · rw [if_pos h]
      symm
      rw [List.filterMap_eq_nil_iff]
      intro i hi
      rw [List.mem_range] at hi
      rw [if_neg]
      rintro ⟨h1, -⟩
      omega
    · rw [if_neg h, filterMap_range'_from]
      apply List.filterMap_congr
      intro i _
      by_cases hp : 1 ≤ i
      · rw [if_pos hp]
        by_cases hc : (getBar data i).Open > (getBar data (i-1)).Close * (1 + threshold)
        · rw [if_pos hc, if_pos (And.intro hp hc)]
        · rw [if_neg hc, if_neg]
          rintro ⟨-, hc2⟩
          exact hc hc2
      · rw [if_neg hp, if_neg]
        rintro ⟨h1, -⟩
        exact hp h1
  · intro i hc
    set c := (getBar data (i-1)).Close with hcdef
    set o := (getBar data i).Open
    rw [div_mul_eq_mul_div, lt_div_iff hc]
    constructor
    · intro h
      nlinarith
    · intro h
      nlinarith
  · norm_num [scan_upward_gap, getBar, exGapHit, List.range', List.filterMap_cons]
  · norm_num [scan_upward_gap, getBar, exGapMiss, List.range', List.filterMap_cons]

/-- Witness for C6: the equivalence instantiated at the worked example —
previous close 100, threshold 0.01, open 102. -/
theorem upward_gap_hit_characterization_witness :
    (0 : ℚ) < 100 ∧
      ((100 : ℚ) * (1 + 1/100) < 102 ↔ (1/100 : ℚ) * 100 < (102 - 100) / 100 * 100) := by
  have h := (upward_gap_hit_characterization exGapHit (1/100)).2.1 1 (by norm_num [getBar, exGapHit])
  refine ⟨by norm_num, ?_⟩
  simpa [getBar, exGapHit] using h

/-!
## Structure of the ContinuousUptrend output

The following lemmas characterize the hits that `uptrend_go` emits: dates of
hits come from bars of the processed suffix, hits stop at a reset, and over
a strictly ascending suffix the hits are one per bar from the bar whose
streak count reaches `min_days` onward.
-/

theorem getBar_cons_zero (b : Bar) (l : List Bar) : getBar (b :: l) 0 = b := rfl

theorem getBar_cons_succ (b : Bar) (l : List Bar) (j : Nat) :
    getBar (b :: l) (j + 1) = getBar l j := rfl

theorem getBar_eq_getElem (data : List Bar) (i : Nat) (h : i < data.length) :
    getBar data i = data[i] := by
  simp [getBar, List.getD_eq_getElem?_getD, List.getElem?_eq_getElem h]

theorem getBar_take (l : List Bar) (n i : Nat) (h : i < n) :
    getBar (l.take n) i = getBar l i := by
  simp [getBar, List.getD_eq_getElem?_getD, List.getElem?_take_of_lt h]

theorem getBar_drop (l : List Bar) (n i : Nat) :
    getBar (l.drop n) i = getBar l (n + i) := by
  simp [getBar, List.getD_eq_getElem?_getD, List.getElem?_drop]

/-- Every hit of the streak loop carries the date of one of the processed
bars. -/
theorem uptrend_go_dates (m : Nat) :
    ∀ (xs : List Bar) (p : ℚ) (cd : Nat) (h : Nat × Nat × ℚ),
      h ∈ uptrend_go m p cd xs → h.1 ∈ xs.map Bar.date := by
  intro xs
  induction xs with
  | nil =>
    intro p cd h hmem
    cases hmem
  | cons b rest ih =>
    intro p cd h hmem
    rw [uptrend_go] at hmem
    rw [List.map_cons, List.mem_cons]
    by_cases hb : b.Close > p
    · rw [if_pos hb] at hmem
      by_cases hm : cd + 1 ≥ m
      · rw [if_pos hm] at hmem
        rcases List.mem_cons.mp hmem with h1 | h1
        · left
          rw [h1]
        · right
          exact ih _ _ _ h1
      · rw [if_neg hm] at hmem
        right
        exact ih _ _ _ hmem
    · rw [if_neg hb] at hmem
      right
      exact ih _ _ _ hmem

theorem lastClose_eq_getBar (ys : List Bar) :
    ∀ p : ℚ, lastClose p ys = if ys.length = 0 then p else (getBar ys (ys.length - 1)).Close := by
  induction ys with
  | nil =>
    intro p
    rfl
  | cons b ys ih =>
    intro p
    rw [lastClose, ih b.Close]
    by_cases h0 : ys.length = 0
    · rw [if_pos h0, if_neg (by simp), List.length_cons, h0]
      rfl
    · rw [if_neg h0, if_neg (by simp)]
      have h1 : (b :: ys).length - 1 = (ys.length - 1) + 1 := by
        simp only [List.length_cons]
        omega
      rw [h1, getBar_cons_succ]

/-- Splitting the streak loop at a bar that does not rise above the close
before it: the loop emits the hits of the prefix, resets at that bar, and
continues on the suffix with a fresh streak of 1 starting from the close of
the reset bar. -/
theorem uptrend_go_append_reset (m : Nat) (z : Bar) (zs : List Bar) :
    ∀ (ys : List Bar) (p : ℚ) (cd : Nat), ¬ (z.Close > lastClose p ys) →
      uptrend_go m p cd (ys ++ z :: zs)
        = uptrend_go m p cd ys ++ uptrend_go m z.Close 1 zs := by
  intro ys
  induction ys with
  | nil =>
    intro p cd hz
    rw [lastClose] at hz
    conv_lhs => rw [List.nil_append, uptrend_go]
    rw [if_neg hz]
    rfl
  | cons b ys ih =>
    intro p cd hz
    rw [lastClose] at hz
    conv_lhs => rw [List.cons_append, uptrend_go]
    conv_rhs => rw [uptrend_go]
    by_cases hb : b.Close > p
    · rw [if_pos hb, if_pos hb]
      by_cases hm : cd + 1 ≥ m
      · rw [if_pos hm, if_pos hm, ih _ _ hz, List.cons_append]
      · rw [if_neg hm, if_neg hm, ih _ _ hz]
    · rw [if_neg hb, if_neg hb, ih _ _ hz]

/-- Over a strictly ascending suffix (each close above the previous one,
starting above `p`), the streak loop with current streak `cd` emits exactly
one hit per bar from the bar where the streak count reaches `min_days`
onward, carrying the running streak count and the close of the bar. -/
theorem uptrend_go_chain (m : Nat) :
    ∀ (xs : List Bar) (p : ℚ) (cd : Nat),
      List.Chain (· < ·) p (xs.map Bar.Close) →
      uptrend_go m p cd xs
        = (List.range' (m - (cd + 1)) (xs.length - (m - (cd + 1)))).map fun j =>
            ((getBar xs j).date, cd + 1 + j, (getBar xs j).Close) := by
  intro xs
  induction xs with
  | nil =>
    intro p cd _
    simp [uptrend_go]
  | cons b rest ih =>
    intro p cd hch
    rw [List.map_cons, List.chain_cons] at hch
    obtain ⟨hpb, hch⟩ := hch
    rw [uptrend_go, if_pos hpb, ih b.Close (cd + 1) hch]
    by_cases hm : cd + 1 ≥ m
    · rw [if_pos hm]
      have hk : m - (cd + 1) = 0 := by omega
      have hk2 : m - (cd + 1 + 1) = 0 := by omega
      rw [hk, hk2, Nat.sub_zero, Nat.sub_zero, List.length_cons, List.range'_succ,
        List.map_cons, getBar_cons_zero]
      congr 1
      rw [List.range'_eq_map_range, List.range'_eq_map_range, List.map_map, List.map_map]
      apply List.map_congr_left
      intro j _
      have h1 : (1 : Nat) + j = j + 1 := by omega
      simp only [Function.comp_apply, Nat.zero_add, h1, getBar_cons_succ]
      have h2 : cd + 1 + (j + 1) = cd + 1 + 1 + j := by omega
      rw [h2]
    · rw [if_neg hm]
      have hk : m - (cd + 1) = (m - (cd + 1 + 1)) + 1 := by omega
      have hlen : (b :: rest).length - (m - (cd + 1)) = rest.length - (m - (cd + 1 + 1)) := by
        simp only [List.length_cons]
        omega
      rw [hlen, hk, List.range'_eq_map_range, List.range'_eq_map_range, List.map_map,
        List.map_map]
      apply List.map_congr_left
      intro j _
      have h1 : m - (cd + 1 + 1) + 1 + j = (m - (cd + 1 + 1) + j) + 1 := by omega
      simp only [Function.comp_apply, h1, getBar_cons_succ]
      have h2 : cd + 1 + (m - (cd + 1 + 1) + j + 1) = cd + 1 + 1 + (m - (cd + 1 + 1) + j) := by
        omega
      rw [h2]

/-- A pointwise ascending condition from index `i` on yields a strictly
ascending chain of closes starting at bar `i`. -/
theorem chain_of_ascending (data : List Bar) :
    ∀ (fuel i : Nat), data.length - i ≤ fuel →
      (∀ j, j < data.length - 1 → i ≤ j →
        (getBar data j).Close < (getBar data (j+1)).Close) →
      List.Chain (· < ·) ((getBar data i).Close) ((data.drop (i+1)).map Bar.Close) := by
  intro fuel
  induction fuel with
  | zero =>
    intro i hle _
    rw [List.drop_eq_nil_of_le (by omega), List.map_nil]
    exact List.Chain.nil
  | succ fuel ih =>
    intro i hle hasc
    by_cases hlt : i + 1 < data.length
    · rw [List.drop_eq_getElem_cons hlt, List.map_cons]
      refine List.Chain.cons ?_ ?_
      · have h := hasc i (by omega) (le_refl i)
        rw [getBar_eq_getElem data (i+1) hlt] at h
        exact h
      · have h2 := ih (i+1) (by omega) (fun j hj hij => hasc j hj (by omega))
        rw [getBar_eq_getElem data (i+1) hlt] at h2
        exact h2
    · rw [List.drop_eq_nil_of_le (by omega), List.map_nil]
      exact List.Chain.nil

/-- C4: when a series ends in a strict `N`-day ascending close-over-close
streak — the streak occupying the last `N` bars, starting at position `s`
with `len = s + N`, maximal on the left, `N ≥ min_days ≥ 2`, dates strictly
increasing — ContinuousUptrend returns the hits of the bars before the
streak followed by exactly `N - min_days + 1` further hits: one per bar from
the bar where the streak first reaches `min_days` through the terminal bar,
each carrying the current streak length and that bar's close; every earlier
hit is dated strictly before the streak start. -/
theorem uptrend_terminal_streak_hit_count (data : List Bar) (min_days N s : Nat)
    (h2 : 2 ≤ min_days) (hN : min_days ≤ N) (hs : data.length = s + N)
    (hasc : ∀ j, j < data.length - 1 → s ≤ j →
      (getBar data j).Close < (getBar data (j+1)).Close)
    (hmax : s = 0 ∨ ¬ ((getBar data (s-1)).Close < (getBar data s).Close))
    (hdates : ∀ k, k < data.length → ∀ j, j < k →
      (getBar data j).date < (getBar data k).date) :
    ∃ pre, scan_continuous_uptrend data min_days
        = pre ++ (List.range (N - min_days + 1)).map
            (fun j => ((getBar data (s + (min_days - 1) + j)).date, min_days + j,
                       (getBar data (s + (min_days - 1) + j)).Close))
      ∧ ∀ h ∈ pre, h.1 < (getBar data s).date := by
  obtain ⟨b0, rest0, rfl⟩ : ∃ b0 rest0, data = b0 :: rest0 := by
    cases data with
    | nil =>
      exfalso
      simp only [List.length_nil] at hs
      omega
    | cons b r => exact ⟨b, r, rfl⟩
  have hguard : ¬ ((b0 :: rest0).length < min_days) := by
    simp only [List.length_cons] at hs ⊢
    omega
  have hscan : scan_continuous_uptrend (b0 :: rest0) min_days
      = uptrend_go min_days b0.Close 1 rest0 := by
    rw [scan_continuous_uptrend, if_neg hguard]
  rw [hscan]
  have hlr : rest0.length = s + N - 1 := by
    simp only [List.length_cons] at hs
    omega
  rcases Nat.eq_zero_or_pos s with hs0 | hspos
  · subst hs0
    refine ⟨[], ?_, by simp⟩
    rw [List.nil_append]
    have hch : List.Chain (· < ·) b0.Close (rest0.map Bar.Close) := by
      have h := chain_of_ascending (b0 :: rest0) (b0 :: rest0).length 0 (by omega) hasc
      exact h
    rw [uptrend_go_chain min_days rest0 b0.Close 1 hch]
    have hcount : rest0.length - (min_days - (1+1)) = N - min_days + 1 := by
      omega
    rw [hcount, List.range'_eq_map_range, List.map_map]
    apply List.map_congr_left
    intro j hj
    simp only [Function.comp_apply]
    have hidx : 0 + (min_days - 1) + j = (min_days - (1+1) + j) + 1 := by omega
    rw [hidx, getBar_cons_succ]
    have hstreak : 1 + 1 + (min_days - (1+1) + j) = min_days + j := by omega
    rw [hstreak]
  · have hlt : s - 1 < rest0.length := by omega
    set ys := rest0.take (s-1) with hys
    set zs := rest0.drop s with hzs
    have hdropc : rest0.drop (s-1) = rest0[s-1] :: zs := by
      have hs1 : s - 1 + 1 = s := by omega
      rw [List.drop_eq_getElem_cons hlt, hs1]
    have hsplit : rest0 = ys ++ rest0[s-1] :: zs := by
      conv_lhs => rw [← List.take_append_drop (s-1) rest0]
      rw [hdropc]
    have hz : getBar (b0 :: rest0) s = rest0[s-1] := by
      conv_lhs => rw [show s = (s-1)+1 from by omega]
      rw [getBar_cons_succ]
      exact getBar_eq_getElem rest0 (s-1) hlt
    have hyslen : ys.length = s - 1 := by
      rw [hys, List.length_take]
      omega
    have hlast : lastClose b0.Close ys = (getBar (b0 :: rest0) (s-1)).Close := by
      rw [lastClose_eq_getBar]
      by_cases hys0 : ys.length = 0
      · rw [if_pos hys0]
        have hs10 : s - 1 = 0 := by omega
        rw [hs10]
        rfl
      · rw [if_neg hys0, hyslen]
        have hlt2 : s - 1 - 1 < s - 1 := by omega
        rw [hys, getBar_take rest0 (s-1) (s-1-1) hlt2]
        conv_rhs => rw [show s - 1 = (s - 1 - 1) + 1 from by omega]
        rw [getBar_cons_succ]
    have hreset : ¬ (rest0[s-1].Close > lastClose b0.Close ys) := by
      rw [hlast, ← hz]
      rcases hmax with h0 | hm
      · exact absurd h0 (by omega)
      · exact hm
    have hgoeq : uptrend_go min_days b0.Close 1 rest0
        = uptrend_go min_days b0.Close 1 ys
          ++ uptrend_go min_days (rest0[s-1]).Close 1 zs := by
      conv_lhs => rw [hsplit]
      exact uptrend_go_append_reset min_days rest0[s-1] zs ys b0.Close 1 hreset
    have hchz : List.Chain (· < ·) ((getBar (b0 :: rest0) s).Close) (zs.map Bar.Close) := by
      have h := chain_of_ascending (b0 :: rest0) (b0 :: rest0).length s (by omega) hasc
      have hdd : (b0 :: rest0).drop (s+1) = zs := by
        rw [hzs]
        rfl
      rw [hdd] at h
      exact h
    have hzbar : ∀ i, getBar zs i = getBar (b0 :: rest0) (s + 1 + i) := by
      intro i
      rw [hzs, getBar_drop]
      conv_rhs => rw [show s + 1 + i = (s + i) + 1 from by omega]
      rw [getBar_cons_succ]
    have htail : uptrend_go min_days (rest0[s-1]).Close 1 zs
        = (List.range (N - min_days + 1)).map
            (fun j => ((getBar (b0 :: rest0) (s + (min_days - 1) + j)).date, min_days + j,
                       (getBar (b0 :: rest0) (s + (min_days - 1) + j)).Close)) := by
      rw [← hz, uptrend_go_chain min_days zs ((getBar (b0 :: rest0) s).Close) 1 hchz]
      have hzlen : zs.length = N - 1 := by
        rw [hzs, List.length_drop]
        omega
      have hcount : zs.length - (min_days - (1+1)) = N - min_days + 1 := by
        rw [hzlen]
        omega
      rw [hcount, List.range'_eq_map_range, List.map_map]
      apply List.map_congr_left
      intro j hj
      simp only [Function.comp_apply]
      rw [hzbar]
      have hidx : s + 1 + (min_days - (1+1) + j) = s + (min_days - 1) + j := by omega
      rw [hidx]
      have hstreak : 1 + 1 + (min_days - (1+1) + j) = min_days + j := by omega
      rw [hstreak]
    refine ⟨uptrend_go min_days b0.Close 1 ys, by rw [hgoeq, htail], ?_⟩
    intro h hmem
    have hd := uptrend_go_dates min_days ys b0.Close 1 h hmem
    rw [List.mem_map] at hd
    obtain ⟨b, hb, hbd⟩ := hd
    rw [List.mem_iff_getElem] at hb
    obtain ⟨i, hilt, hbi⟩ := hb
    have hix : i < s - 1 := by omega
    have hbar : b = getBar (b0 :: rest0) (i + 1) := by
      rw [← hbi, ← getBar_eq_getElem ys i hilt, hys, getBar_take rest0 (s-1) i hix,
        ← getBar_cons_succ b0 rest0 i]
    have hlt3 := hdates s (by simp only [List.length_cons]; omega) (i+1) (by omega)
    rw [← hbd, hbar]
    exact hlt3

/-- Witness for C4: the five-bar strictly ascending series `exUp5` with
`min_days = 4`, `N = 5`, streak start 0 — exactly 2 tail hits. -/
theorem uptrend_terminal_streak_hit_count_witness :
    ∃ pre, scan_continuous_uptrend exUp5 4
        = pre ++ (List.range (5 - 4 + 1)).map
            (fun j => ((getBar exUp5 (0 + (4 - 1) + j)).date, 4 + j,
                       (getBar exUp5 (0 + (4 - 1) + j)).Close))
      ∧ ∀ h ∈ pre, h.1 < (getBar exUp5 0).date :=
  uptrend_terminal_streak_hit_count exUp5 4 5 0 (by decide) (by decide) (by decide)
    (by decide) (by decide) (by decide)

/-- Witness for C10: `exVol3` has 3 bars — with `ma_period = 3` the scan is
empty, and with `ma_period = 2` the scan is nonempty so the length bound
`ma_period + 1 ≤ 3` is forced. -/
theorem volume_breakout_needs_more_than_ma_period_bars_witness :
    scan_volume_breakout exVol3 1 3 = [] ∧ (2 : Nat) + 1 ≤ exVol3.length :=
  ⟨(volume_breakout_needs_more_than_ma_period_bars exVol3 1 3).1 rfl,
   (volume_breakout_needs_more_than_ma_period_bars exVol3 (1/10) 2).2.1
     (by rw [(volume_breakout_needs_more_than_ma_period_bars exVol3 (1/10) 2).2.2]; simp)⟩

/-- C2: VolumeBreakout emits a hit at bar index `i` exactly when
`i ≥ ma_period` and the volume of bar `i` strictly exceeds
`(1 + threshold)` times the trailing rolling mean of volume over bars
`i - ma_period + 1 .. i` (a window that includes the volume of bar `i`
itself); the emitted tuple carries the date of bar `i`, its raw volume and
the truncated mean.  In particular no hit is ever emitted at an index below
`ma_period`, for any input. -/
theorem volume_breakout_hit_characterization (data : List Bar) (threshold : ℚ)
    (ma_period : Nat) :
    scan_volume_breakout data threshold ma_period
      = (List.range data.length).filterMap fun i =>
          if ma_period ≤ i ∧
              (1 + threshold) * volumeMA data ma_period i < ((getBar data i).Volume : ℚ)
          then some ((getBar data i).date, (getBar data i).Volume,
                     Rat.floor (volumeMA data ma_period i))
          else none :=
  scan_volume_breakout_eq data threshold ma_period

/-!
## Facts feeding the evaluator-level invariant
-/

theorem getBar_mem (data : List Bar) (i : Nat) (h : i < data.length) :
    getBar data i ∈ data := by
  rw [getBar_eq_getElem data i h]
  exact List.getElem_mem h

/-- Every element of the volume-breakout output is the tuple
`(date, raw volume, truncated rolling mean)` of a bar at an index at least
`ma_period`. -/
theorem scan_volume_breakout_mem (data : List Bar) (threshold : ℚ) (ma_period : Nat)
    (x : Nat × Nat × Int) (hx : x ∈ scan_volume_breakout data threshold ma_period) :
    ∃ i, ma_period ≤ i ∧ i < data.length
      ∧ x = ((getBar data i).date, (getBar data i).Volume,
             Rat.floor (volumeMA data ma_period i)) := by
  rw [scan_volume_breakout_eq, List.mem_filterMap] at hx
  obtain ⟨i, hi, hfi⟩ := hx
  rw [List.mem_range] at hi
  split_ifs at hfi with hc
  · obtain ⟨h1, -⟩ := hc
    obtain rfl := Option.some.inj hfi
    exact ⟨i, h1, hi, rfl⟩

/-- Dates of PriceSurge hits are dates of bars of the input series. -/
theorem scan_price_surge_dates (data : List Bar) (threshold : ℚ)
    (x : Nat × ℚ × ℚ) (hx : x ∈ scan_price_surge data threshold) :
    x.1 ∈ data.map Bar.date := by
  unfold scan_price_surge at hx
  by_cases h2 : data.length < 2
  · rw [if_pos h2] at hx
    cases hx
  · rw [if_neg h2, List.mem_filterMap] at hx
    obtain ⟨i, hi, hfi⟩ := hx
    rw [List.mem_range'_1] at hi
    have hilt : i < data.length := by omega
    split_ifs at hfi with hc
    obtain rfl := Option.some.inj hfi
    exact List.mem_map_of_mem Bar.date (getBar_mem data i hilt)

/-- Dates of UpwardGap hits are dates of bars of the input series. -/
theorem scan_upward_gap_dates (data : List Bar) (threshold : ℚ)
    (x : Nat × ℚ × ℚ) (hx : x ∈ scan_upward_gap data threshold) :
    x.1 ∈ data.map Bar.date := by
  unfold scan_upward_gap at hx
  by_cases h2 : data.length < 2
  · rw [if_pos h2] at hx
    cases hx
  · rw [if_neg h2, List.mem_filterMap] at hx
    obtain ⟨i, hi, hfi⟩ := hx
    rw [List.mem_range'_1] at hi
    have hilt : i < data.length := by omega
    simp only [] at hfi
    split_ifs at hfi with hc
    obtain rfl := Option.some.inj hfi
    exact List.mem_map_of_mem Bar.date (getBar_mem data i hilt)

/-- Dates of ContinuousUptrend hits are dates of bars of the input series. -/
theorem scan_continuous_uptrend_dates (data : List Bar) (min_days : Nat)
    (x : Nat × Nat × ℚ) (hx : x ∈ scan_continuous_uptrend data min_days) :
    x.1 ∈ data.map Bar.date := by
  unfold scan_continuous_uptrend at hx
  by_cases hg : data.length < min_days
  · rw [if_pos hg] at hx
    cases hx
  · rw [if_neg hg] at hx
    cases data with
    | nil => cases hx
    | cons b rest =>
      have hd := uptrend_go_dates min_days rest b.Close 1 x hx
      rw [List.map_cons, List.mem_cons]
      right
      exact hd

theorem setInsert_nodup (x : Nat) (s : List Nat) (h : s.Nodup) : (setInsert x s).Nodup := by
  unfold setInsert
  split_ifs with hx
  · exact h
  · exact List.nodup_cons.mpr ⟨hx, h⟩

theorem setInsert_toFinset (x : Nat) (s : List Nat) :
    (setInsert x s).toFinset = insert x s.toFinset := by
  unfold setInsert
  split_ifs with hx
  · rw [Finset.insert_eq_self.mpr (List.mem_toFinset.mpr hx)]
  · rw [List.toFinset_cons]

theorem map_const_toFinset (t : Nat) {α : Type} (l : List α) (h : ¬ l.isEmpty) :
    (l.map (fun _ => t)).toFinset = {t} := by
  induction l with
  | nil => simp at h
  | cons a l ih =>
    rw [List.map_cons, List.toFinset_cons]
    by_cases hl : l.isEmpty
    · cases l with
      | nil => simp
      | cons c cs => simp at hl
    · rw [ih hl]
      simp

/-- Updating one hit-set together with its table preserves the
"hit-set holds exactly the table tickers" relation. -/
theorem hitset_table_toFinset {α : Type} (tk : Nat) (s : List Nat) (tickers : List Nat)
    (res : List α) (newTickers : List Nat)
    (hEq : s.toFinset = tickers.toFinset)
    (hnew : newTickers = res.map fun _ => tk) :
    (if res.isEmpty then s else setInsert tk s).toFinset
      = (tickers ++ newTickers).toFinset := by
  subst hnew
  rw [List.toFinset_append]
  cases res with
  | nil => simp [hEq]
  | cons a l =>
    rw [if_neg (by simp), setInsert_toFinset, hEq,
      map_const_toFinset tk (a :: l) (by simp), Finset.insert_eq, Finset.union_comm]

theorem hitset_update_nodup {α : Type} (tk : Nat) (s : List Nat) (res : List α)
    (h : s.Nodup) : (if res.isEmpty then s else setInsert tk s).Nodup := by
  split_ifs
  · exact h
  · exact setInsert_nodup tk s h

/-- One loop iteration preserves the state invariant. -/
theorem processTicker_inv (input : List (Nat × Option (List Bar))) (ss : Nat)
    (pt gt : ℚ) (md : Nat) (vt : ℚ) (st : ScanState) (td : Nat × Option (List Bar))
    (htd : td ∈ input) (hinv : StateInv input ss st) :
    StateInv input ss (processTicker ss pt gt md vt st td.1 td.2) := by
  obtain ⟨hn1, hn2, hn3, hn4, hs1, hs2, hs3, hs4, hd1, hd2, hd3, hd4, hvd⟩ := hinv
  rcases hfo : fetch_ok td.2 with _ | data
  · unfold processTicker
    rw [hfo]
    exact ⟨hn1, hn2, hn3, hn4, hs1, hs2, hs3, hs4, hd1, hd2, hd3, hd4, hvd⟩
  · unfold processTicker
    rw [hfo]
    refine ⟨?_, ?_, ?_, ?_, ?_, ?_, ?_, ?_, ?_, ?_, ?_, ?_, ?_⟩
    · exact hitset_update_nodup _ _ _ hn1
    · exact hitset_update_nodup _ _ _ hn2
    · exact hitset_update_nodup _ _ _ hn3
    · exact hitset_update_nodup _ _ _ hn4
    · rw [List.map_append]
      exact hitset_table_toFinset td.1 st.surge _ _ _ hs1 (by rw [List.map_map]; rfl)
    · rw [List.map_append]
      exact hitset_table_toFinset td.1 st.gap _ _ _ hs2 (by rw [List.map_map]; rfl)
    · rw [List.map_append]
      exact hitset_table_toFinset td.1 st.uptrend _ _ _ hs3 (by rw [List.map_map]; rfl)
    · rw [List.map_append]
      exact hitset_table_toFinset td.1 st.volume _ _ _ hs4 (by rw [List.map_map]; rfl)
    · rw [List.forall_mem_append]
      refine ⟨hd1, ?_⟩
      intro r hr
      rw [List.mem_map] at hr
      obtain ⟨x, hx, rfl⟩ := hr
      have hdm := scan_price_surge_dates _ pt x hx
      rw [List.mem_map] at hdm
      obtain ⟨b, hb, hbd⟩ := hdm
      rw [List.mem_filter] at hb
      have := of_decide_eq_true hb.2
      show ss ≤ x.1
      omega
    · rw [List.forall_mem_append]
      refine ⟨hd2, ?_⟩
      intro r hr
      rw [List.mem_map] at hr
      obtain ⟨x, hx, rfl⟩ := hr
      have hdm := scan_upward_gap_dates _ gt x hx
      rw [List.mem_map] at hdm
      obtain ⟨b, hb, hbd⟩ := hdm
      rw [List.mem_filter] at hb
      have := of_decide_eq_true hb.2
      show ss ≤ x.1
      omega
    · rw [List.forall_mem_append]
      refine ⟨hd3, ?_⟩
      intro r hr
      rw [List.mem_map] at hr
      obtain ⟨x, hx, rfl⟩ := hr
      have hdm := scan_continuous_uptrend_dates _ md x hx
      rw [List.mem_map] at hdm
      obtain ⟨b, hb, hbd⟩ := hdm
      rw [List.mem_filter] at hb
      have := of_decide_eq_true hb.2
      show ss ≤ x.1
      omega
    · rw [List.forall_mem_append]
      refine ⟨hd4, ?_⟩
      intro r hr
      rw [List.mem_map] at hr
      obtain ⟨x, hx, rfl⟩ := hr
      rw [List.mem_filter] at hx
      have := of_decide_eq_true hx.2
      show ss ≤ x.1
      exact this
    · rw [List.forall_mem_append]
      refine ⟨hvd, ?_⟩
      intro r hr
      rw [List.mem_map] at hr
      obtain ⟨x, hx, rfl⟩ := hr
      rw [List.mem_filter] at hx
      obtain ⟨i, hip, hil, hxe⟩ := scan_volume_breakout_mem data vt 50 x hx.1
      refine ⟨td, htd, data, hfo, rfl, i, hip, hil, ?_, ?_, ?_⟩
      · show x.1 = (getBar data i).date
        rw [hxe]
      · show x.2.1 = (getBar data i).Volume
        rw [hxe]
      · show x.2.2 = Rat.floor (volumeMA data 50 i)
        rw [hxe]

/-- The scan loop preserves the invariant over any sublist of the input. -/
theorem scanLoop_inv (input : List (Nat × Option (List Bar))) (ss : Nat)
    (pt gt : ℚ) (md : Nat) (vt : ℚ) :
    ∀ (l : List (Nat × Option (List Bar))), (∀ td ∈ l, td ∈ input) →
      ∀ st, StateInv input ss st →
        StateInv input ss
          (l.foldl (fun st td => processTicker ss pt gt md vt st td.1 td.2) st) := by
  intro l
  induction l with
  | nil =>
    intro _ st hst
    exact hst
  | cons td l ih =>
    intro hsub st hst
    rw [List.foldl_cons]
    exact ih (fun x hx => hsub x (List.mem_cons_of_mem td hx)) _
      (processTicker_inv input ss pt gt md vt st td (hsub td (List.mem_cons_self td l)) hst)

theorem initState_inv (input : List (Nat × Option (List Bar))) (ss : Nat) :
    StateInv input ss initState := by
  refine ⟨List.nodup_nil, List.nodup_nil, List.nodup_nil, List.nodup_nil,
    rfl, rfl, rfl, rfl, ?_, ?_, ?_, ?_, ?_⟩ <;> intro r hr <;> cases hr

/-- The final state of a `perform_scans` run satisfies the invariant. -/
theorem perform_scans_state_inv (input : List (Nat × Option (List Bar))) (ss : Nat)
    (pt gt : ℚ) (md : Nat) (vt : ℚ) :
    StateInv input ss
      (input.foldl (fun st td => processTicker ss pt gt md vt st td.1 td.2) initState) :=
  scanLoop_inv input ss pt gt md vt input (fun _ hx => hx) initState
    (initState_inv input ss)

/-- Membership in the intersection list `allCriteria`. -/
theorem mem_allCriteria (st : ScanState) (t : Nat) :
    t ∈ allCriteria st ↔ t ∈ st.surge ∧ t ∈ st.gap ∧ t ∈ st.uptrend ∧ t ∈ st.volume := by
  unfold allCriteria
  rw [List.mem_filter]
  constructor
  · rintro ⟨h1, h2⟩
    have := of_decide_eq_true h2
    exact ⟨h1, this⟩
  · rintro ⟨h1, h2⟩
    exact ⟨h1, decide_eq_true h2⟩

/-- Shape of the combined rows: one per ticker of the sorted intersection,
with first-match lookups for price and volume. -/
theorem mem_mkCombined (st : ScanState) (row : CombinedRow) :
    row ∈ mkCombined st ↔ ∃ t ∈ allCriteria st,
      row = ⟨t, (st.scan_a.find? fun r => r.Ticker == t).map RowA.ClosePrice,
                (st.scan_d.find? fun r => r.Ticker == t).map RowD.Volume⟩ := by
  unfold mkCombined
  rw [List.mem_map]
  constructor
  · rintro ⟨t, ht, rfl⟩
    exact ⟨t, (List.mem_insertionSort (· ≤ ·)).mp ht, rfl⟩
  · rintro ⟨t, ht, rfl⟩
    exact ⟨t, (List.mem_insertionSort (· ≤ ·)).mpr ht, rfl⟩

theorem toFinset_perm {l l' : List Nat} (h : l.Perm l') : l.toFinset = l'.toFinset := by
  ext a
  rw [List.mem_toFinset, List.mem_toFinset, h.mem_iff]

/-- C1: the tickers of the combined table are exactly the intersection of
the four per-predicate ticker hit-sets (read off from the four result
tables); the combined rows are sorted by ticker ascending; and the combined
table is at most as large as each of the four hit-sets — in particular no
larger than the smallest. -/
theorem combined_table_is_sorted_intersection (input : List (Nat × Option (List Bar)))
    (ss : Nat) (pt gt : ℚ) (md : Nat) (vt : ℚ) :
    ((perform_scans input ss pt gt md vt).combined.map CombinedRow.Ticker).toFinset
      = ((perform_scans input ss pt gt md vt).scan_a.map RowA.Ticker).toFinset
        ∩ ((perform_scans input ss pt gt md vt).scan_b.map RowB.Ticker).toFinset
        ∩ ((perform_scans input ss pt gt md vt).scan_c.map RowC.Ticker).toFinset
        ∩ ((perform_scans input ss pt gt md vt).scan_d.map RowD.Ticker).toFinset
    ∧ List.Sorted (· ≤ ·) ((perform_scans input ss pt gt md vt).combined.map CombinedRow.Ticker)
    ∧ (perform_scans input ss pt gt md vt).combined.length
        ≤ ((perform_scans input ss pt gt md vt).scan_a.map RowA.Ticker).toFinset.card
    ∧ (perform_scans input ss pt gt md vt).combined.length
        ≤ ((perform_scans input ss pt gt md vt).scan_b.map RowB.Ticker).toFinset.card
    ∧ (perform_scans input ss pt gt md vt).combined.length
        ≤ ((perform_scans input ss pt gt md vt).scan_c.map RowC.Ticker).toFinset.card
    ∧ (perform_scans input ss pt gt md vt).combined.length
        ≤ ((perform_scans input ss pt gt md vt).scan_d.map RowD.Ticker).toFinset.card := by
  have inv := perform_scans_state_inv input ss pt gt md vt
  set stF := input.foldl (fun st td => processTicker ss pt gt md vt st td.1 td.2) initState
    with hstF
  have hres : perform_scans input ss pt gt md vt
      = ⟨stF.scan_a, stF.scan_b, stF.scan_c, stF.scan_d, mkCombined stF⟩ := rfl
  rw [hres]
  dsimp only
  obtain ⟨hn1, -, -, -, hs1, hs2, hs3, hs4, -, -, -, -, -⟩ := inv
  have hmap : (mkCombined stF).map CombinedRow.Ticker
      = List.insertionSort (· ≤ ·) (allCriteria stF) := by
    unfold mkCombined
    rw [List.map_map]
    conv_rhs => rw [← List.map_id (List.insertionSort (· ≤ ·) (allCriteria stF))]
    apply List.map_congr_left
    intro a _
    rfl
  have hperm := List.perm_insertionSort (· ≤ ·) (allCriteria stF)
  have hset : (allCriteria stF).toFinset
      = (stF.scan_a.map RowA.Ticker).toFinset ∩ (stF.scan_b.map RowB.Ticker).toFinset
        ∩ (stF.scan_c.map RowC.Ticker).toFinset ∩ (stF.scan_d.map RowD.Ticker).toFinset := by
    ext a
    simp only [List.mem_toFinset, mem_allCriteria, Finset.mem_inter]
    have m1 : a ∈ stF.surge ↔ a ∈ stF.scan_a.map RowA.Ticker := by
      rw [← List.mem_toFinset, hs1, List.mem_toFinset]
    have m2 : a ∈ stF.gap ↔ a ∈ stF.scan_b.map RowB.Ticker := by
      rw [← List.mem_toFinset, hs2, List.mem_toFinset]
    have m3 : a ∈ stF.uptrend ↔ a ∈ stF.scan_c.map RowC.Ticker := by
      rw [← List.mem_toFinset, hs3, List.mem_toFinset]
    have m4 : a ∈ stF.volume ↔ a ∈ stF.scan_d.map RowD.Ticker := by
      rw [← List.mem_toFinset, hs4, List.mem_toFinset]
    rw [m1, m2, m3, m4]
    tauto
  have hnodup : (allCriteria stF).Nodup := List.Nodup.filter _ hn1
  have hlen : (mkCombined stF).length = (allCriteria stF).toFinset.card := by
    unfold mkCombined
    rw [List.length_map, List.length_insertionSort, List.toFinset_card_of_nodup hnodup]
  have hcomb : ((mkCombined stF).map CombinedRow.Ticker).toFinset
      = (stF.scan_a.map RowA.Ticker).toFinset ∩ (stF.scan_b.map RowB.Ticker).toFinset
        ∩ (stF.scan_c.map RowC.Ticker).toFinset ∩ (stF.scan_d.map RowD.Ticker).toFinset := by
    rw [hmap, toFinset_perm hperm, hset]
  refine ⟨hcomb, ?_, ?_, ?_, ?_, ?_⟩
  · rw [hmap]
    exact List.sorted_insertionSort (· ≤ ·) (allCriteria stF)
  · rw [hlen, hset]
    exact Finset.card_le_card
      ((Finset.inter_subset_left.trans Finset.inter_subset_left).trans Finset.inter_subset_left)
  · rw [hlen, hset]
    exact Finset.card_le_card
      ((Finset.inter_subset_left.trans Finset.inter_subset_left).trans Finset.inter_subset_right)
  · rw [hlen, hset]
    exact Finset.card_le_card (Finset.inter_subset_left.trans Finset.inter_subset_right)
  · rw [hlen, hset]
    exact Finset.card_le_card Finset.inter_subset_right

/-- A ticker of the intersection always finds a first-match row in both the
Scan A and the Scan D tables, because hit-set membership is recorded exactly
when rows for the ticker are appended. -/
theorem combined_fields_isSome (st : ScanState)
    (hs1 : st.surge.toFinset = (st.scan_a.map RowA.Ticker).toFinset)
    (hs4 : st.volume.toFinset = (st.scan_d.map RowD.Ticker).toFinset)
    (row : CombinedRow) (hrow : row ∈ mkCombined st) :
    row.Price.isSome = true ∧ row.Volume.isSome = true := by
  rw [mem_mkCombined] at hrow
  obtain ⟨t, ht, rfl⟩ := hrow
  rw [mem_allCriteria] at ht
  obtain ⟨h1, h2, h3, h4⟩ := ht
  constructor
  · show ((st.scan_a.find? fun r => r.Ticker == t).map RowA.ClosePrice).isSome = true
    rw [Option.isSome_map', List.find?_isSome]
    have hmem : t ∈ st.scan_a.map RowA.Ticker := by
      rw [← List.mem_toFinset, ← hs1, List.mem_toFinset]
      exact h1
    rw [List.mem_map] at hmem
    obtain ⟨r, hr, hrt⟩ := hmem
    exact ⟨r, hr, beq_iff_eq.mpr hrt⟩
  · show ((st.scan_d.find? fun r => r.Ticker == t).map RowD.Volume).isSome = true
    rw [Option.isSome_map', List.find?_isSome]
    have hmem : t ∈ st.scan_d.map RowD.Ticker := by
      rw [← List.mem_toFinset, ← hs4, List.mem_toFinset]
      exact h4
    rw [List.mem_map] at hmem
    obtain ⟨r, hr, hrt⟩ := hmem
    exact ⟨r, hr, beq_iff_eq.mpr hrt⟩

/-- C3 (counterexample to the claim): in no scan run whatsoever does a
combined-result row report an unavailable price or volume — a ticker in all
four hit-sets always has a captured PriceSurge row and a captured
VolumeBreakout row, since hit-set membership is recorded exactly when such
rows are appended. -/
theorem combined_unavailable_impossible :
    ¬ ∃ (input : List (Nat × Option (List Bar))) (ss : Nat) (pt gt : ℚ) (md : Nat)
        (vt : ℚ) (row : CombinedRow),
      row ∈ (perform_scans input ss pt gt md vt).combined
        ∧ (row.Price = none ∨ row.Volume = none) := by
  rintro ⟨input, ss, pt, gt, md, vt, row, hrow, hbad⟩
  have inv := perform_scans_state_inv input ss pt gt md vt
  obtain ⟨-, -, -, -, hs1, -, -, hs4, -, -, -, -, -⟩ := inv
  obtain ⟨hp, hv⟩ := combined_fields_isSome _ hs1 hs4 row hrow
  rcases hbad with h | h
  · rw [h] at hp
    cases hp
  · rw [h] at hv
    cases hv

/-- C3 (amended): every combined-result row carries a first-match price from
the Scan A rows and a first-match volume from the Scan D rows of its ticker;
the "unavailable" fallback of the code is dead. -/
theorem combined_row_fields_always_first_match (input : List (Nat × Option (List Bar)))
    (ss : Nat) (pt gt : ℚ) (md : Nat) (vt : ℚ) :
    ((perform_scans input ss pt gt md vt).combined.all fun r =>
      r.Price.isSome && r.Volume.isSome) = true := by
  have inv := perform_scans_state_inv input ss pt gt md vt
  obtain ⟨-, -, -, -, hs1, -, -, hs4, -, -, -, -, -⟩ := inv
  rw [List.all_eq_true]
  intro r hr
  obtain ⟨hp, hv⟩ := combined_fields_isSome _ hs1 hs4 r hr
  rw [hp, hv]
  rfl

/-- C8: every recorded hit row is dated at or after the report-window start:
rows of scans A, B, C are produced from the series sliced to dates at or
after the start, and volume-breakout rows are recorded only after the
explicit date re-filter. -/
theorem hit_rows_within_report_window (input : List (Nat × Option (List Bar)))
    (ss : Nat) (pt gt : ℚ) (md : Nat) (vt : ℚ) :
    ((perform_scans input ss pt gt md vt).scan_a.all fun r => decide (ss ≤ r.Date)) = true
    ∧ ((perform_scans input ss pt gt md vt).scan_b.all fun r => decide (ss ≤ r.Date)) = true
    ∧ ((perform_scans input ss pt gt md vt).scan_c.all fun r => decide (ss ≤ r.EndDate)) = true
    ∧ ((perform_scans input ss pt gt md vt).scan_d.all fun r => decide (ss ≤ r.Date)) = true := by
  have inv := perform_scans_state_inv input ss pt gt md vt
  obtain ⟨-, -, -, -, -, -, -, -, hd1, hd2, hd3, hd4, -⟩ := inv
  refine ⟨?_, ?_, ?_, ?_⟩
  · rw [List.all_eq_true]
    intro r hr
    exact decide_eq_true (hd1 r hr)
  · rw [List.all_eq_true]
    intro r hr
    exact decide_eq_true (hd2 r hr)
  · rw [List.all_eq_true]
    intro r hr
    exact decide_eq_true (hd3 r hr)
  · rw [List.all_eq_true]
    intro r hr
    exact decide_eq_true (hd4 r hr)

/-- C9: every recorded volume-breakout row takes its fields from a bar at an
index at least 50 of the fetched series of its ticker, with the
"Volume Increase (%)" field holding the raw volume of the bar and the
"Volume" field holding the truncated 50-bar rolling mean (the consequence of
unpacking the scanner tuple `(date, volume, avg_volume)` as
`(date, volume_ratio, volume)`); consequently the "Volume" field of a
combined row equals the "Volume" field — the truncated average — of the
first recorded in-window breakout row of its ticker, not the traded volume
of the bar. -/
theorem volume_row_field_sources (input : List (Nat × Option (List Bar)))
    (ss : Nat) (pt gt : ℚ) (md : Nat) (vt : ℚ) :
    ((perform_scans input ss pt gt md vt).scan_d.all fun r =>
        input.any fun td =>
          match fetch_ok td.2 with
          | none => false
          | some data =>
            decide (r.Ticker = td.1) &&
              ((List.range data.length).any fun i =>
                decide (50 ≤ i) && decide (r.Date = (getBar data i).date)
                  && decide (r.VolumeIncrease = (getBar data i).Volume)
                  && decide (r.Volume = Rat.floor (volumeMA data 50 i)))) = true
    ∧ ((perform_scans input ss pt gt md vt).combined.all fun row =>
        ((perform_scans input ss pt gt md vt).scan_d.find? fun r =>
            r.Ticker == row.Ticker).map RowD.Volume == row.Volume) = true := by
  have inv := perform_scans_state_inv input ss pt gt md vt
  obtain ⟨-, -, -, -, -, -, -, -, -, -, -, -, hvd⟩ := inv
  constructor
  · rw [List.all_eq_true]
    intro r hr
    obtain ⟨td, htd, data, hfo, hticker, i, h50, hlen, hdate, hvolinc, hvol⟩ := hvd r hr
    rw [List.any_eq_true]
    refine ⟨td, htd, ?_⟩
    rw [hfo]
    rw [Bool.and_eq_true]
    refine ⟨decide_eq_true hticker, ?_⟩
    rw [List.any_eq_true]
    refine ⟨i, List.mem_range.mpr hlen, ?_⟩
    rw [Bool.and_eq_true, Bool.and_eq_true, Bool.and_eq_true]
    exact ⟨⟨⟨decide_eq_true h50, decide_eq_true hdate⟩, decide_eq_true hvolinc⟩,
      decide_eq_true hvol⟩
  · rw [List.all_eq_true]
    intro row hrow
    have hrow2 : row ∈ mkCombined
        (input.foldl (fun st td => processTicker ss pt gt md vt st td.1 td.2) initState) :=
      hrow
    rw [mem_mkCombined] at hrow2
    obtain ⟨t, ht, rfl⟩ := hrow2
    exact beq_self_eq_true _
